import Mathlib

/-!
Verification of the core matching-and-grouping pipeline of the tree_drawer
repository (draw.py and processing.py).

The tree entering the core is the rooted tree produced by the external
preprocessing collaborators (Newick parsing, midpoint rooting, support
collapsing, name trimming), modelled as a finite ordered rooted tree whose
nodes carry a name (meaningful for leaves only).  Nodes are identified by
their path from the root (list of child indices), which mirrors the stable
object identity of ete3 nodes.

Python strings are modelled as Lean String values; all string manipulation
used by the source (str.split, substring containment, regular expressions
with fixed concrete patterns) is re-implemented by structural recursion on
the character list so that every definition evaluates inside the kernel.

Scores are modelled as exact rationals.  The source computes float division
of two small integer set cardinalities; symmetry, bounds and the threshold
comparisons the claims talk about are faithfully represented by the exact
values.  A 0/0 division (Python ZeroDivisionError) is modelled as none.
-/

/-! ## Rooted ordered trees and node identity -/

/-- A rooted, ordered, arbitrary-arity tree.  A node is a leaf iff it has no
children, exactly as ete3's is_leaf test. -/
inductive ETree where
  | node (name : String) (children : List ETree)

instance : Inhabited ETree := ⟨ETree.node "" []⟩

/-- A node identity: the list of child indices leading from the root. -/
abbrev NPath := List Nat

/-- Subtree rooted at the node reached by following a path. -/
def subtreeAt : NPath → ETree → Option ETree
  | [], t => some t
  | i :: p, ETree.node _ cs => (cs.get? i).bind (subtreeAt p)

-- The children of ete3 nodes are visited left to right.
mutual

/-- Paths of all nodes of a subtree rooted at a given path, in the order of
ete3's traverse(strategy=postorder): children subtrees left to right, then
the node itself. -/
def postorderPaths (t : ETree) (p : NPath) : List NPath :=
  match t with
  | ETree.node _ cs => postorderChildren cs p 0 ++ [p]

/-- Postorder paths of a list of sibling subtrees, the first sibling having
child index i. -/
def postorderChildren (cs : List ETree) (p : NPath) (i : Nat) : List NPath :=
  match cs with
  | [] => []
  | c :: rest => postorderPaths c (p ++ [i]) ++ postorderChildren rest p (i + 1)

end

mutual

/-- Leaf names in the order of ete3's get_leaves (left to right). -/
def leafNames : ETree → List String
  | ETree.node nm [] => [nm]
  | ETree.node _ (c :: cs) => leafNamesList (c :: cs)

def leafNamesList : List ETree → List String
  | [] => []
  | c :: cs => leafNames c ++ leafNamesList cs

end

mutual

/-- Rename every leaf of the tree (the demotion step of the registry assigns
new names to demoted leaves; internal node names are untouched). -/
def renameLeaves (f : String → String) : ETree → ETree
  | ETree.node nm [] => ETree.node (f nm) []
  | ETree.node nm (c :: cs) => ETree.node nm (renameLeavesList f (c :: cs))

def renameLeavesList (f : String → String) : List ETree → List ETree
  | [] => []
  | c :: cs => renameLeaves f c :: renameLeavesList f cs

end

/-- True iff the node at the path exists and has no children
(ete3 is_leaf). -/
def isLeafAt (t : ETree) (p : NPath) : Bool :=
  match subtreeAt p t with
  | some (ETree.node _ []) => true
  | _ => false

/-! ## String helpers (Python str.split and friends, structurally) -/

/-- Python name.split(sep) for a one-character separator. -/
def splitOnChar (sep : Char) : List Char → List (List Char)
  | [] => [[]]
  | c :: rest =>
    let r := splitOnChar sep rest
    if c = sep then [] :: r
    else
      match r with
      | g :: gs => (c :: g) :: gs
      | [] => [[c]]

/-- Python sep.join for sep = a single underscore. -/
def joinUnderscore : List (List Char) → List Char
  | [] => []
  | [g] => g
  | g :: gs => g ++ '_' :: joinUnderscore gs

/-- The entity stem of a leaf name: the source expression
underscore.join(name.split(underscore)[:-1]), i.e. everything before the
last underscore (the "bare prefix" of the spec). -/
def stemOf (name : String) : String :=
  String.mk (joinUnderscore ((splitOnChar '_' name.toList).dropLast))

/-- Whether a name matches the source regular expression (.+)_\d+$ used to
select multiple fragments: at least one character, then an underscore, then
one or more digits, at the end of the name. -/
def hasMultiSuffix (name : String) : Bool :=
  let parts := splitOnChar '_' name.toList
  match parts.getLast? with
  | none => false
  | some last =>
    decide (2 ≤ parts.length) && !last.isEmpty && last.all Char.isDigit &&
      !(joinUnderscore parts.dropLast).isEmpty

/-- Python substring containment: sub in s. -/
def listContainsSub (sub : List Char) : List Char → Bool
  | [] => sub.isEmpty
  | c :: rest => sub.isPrefixOf (c :: rest) || listContainsSub sub rest

/-- Python sub in s on strings. -/
def strContains (s sub : String) : Bool :=
  listContainsSub sub.toList s.toList

/-- Keys of a Python dict built by inserting the listed keys in order:
first occurrence of each key, in input order. -/
def firstDedup (seen : List String) : List String → List String
  | [] => []
  | x :: xs => if x ∈ seen then firstDedup seen xs else x :: firstDedup (x :: seen) xs

/-! ## Multiple Registry (draw.py lines 66-86)

The registry receives the leaf names already trimmed by the external name
normalizer (trim_name).  Each name matching the multiple pattern is a key of
the multies dict; the demotion post-filter then counts, for the derived stem
of each registered name, how many registered names contain that stem as a
substring, and removes (and renames to the bare stem) every registered name
whose count is below 2. -/

/-- Keys of the multies dict: names matching the pattern, first occurrence
order (dict keys are unique). -/
def multiesKeys (names : List String) : List String :=
  firstDedup [] (names.filter hasMultiSuffix)

/-- Number of registered names containing the given stem as a substring
(the source expression len([x for x in multies if prefix in x])). -/
def stemCount (reg : List String) (stem : String) : Nat :=
  (reg.filter (fun x => strContains x stem)).length

/-- The to_trim set of the demotion loop: registered names whose derived
stem is a substring of fewer than 2 registered names. -/
def to_trim (reg : List String) : List String :=
  reg.filter (fun name => stemCount reg (stemOf name) < 2)

/-- Registered names surviving the demotion post-filter (the final keys of
the multies dict). -/
def finalMulties (names : List String) : List String :=
  (multiesKeys names).filter (fun name => !((to_trim (multiesKeys names)).contains name))

/-- Final name of a leaf after the demotion loop: demoted leaves are renamed
to their bare stem, every other leaf keeps its name. -/
def finalName (names : List String) (n : String) : String :=
  if (to_trim (multiesKeys names)).contains n then stemOf n else n

/-! ## Descendant Annotator (processing.py add_multi_annotation, draw.py
lines 103-106)

The source attaches a mutable multi_descendants attribute to every node in
one postorder pass; each non-leaf node reads the attributes its children
received earlier in the pass.  The pass is modelled as a fold over the
postorder path list threading an association map from node identity (path)
to annotation, exactly mirroring the dynamic attribute table. -/

abbrev AnnotMap := List (NPath × List String)

/-- Reading a node's multi_descendants attribute (none = attribute absent,
an AttributeError in the source). -/
def lookupA : AnnotMap → NPath → Option (List String)
  | [], _ => none
  | (q, v) :: rest, p => if q = p then some v else lookupA rest p

/-- One call of add_multi_annotation on the node at path p (with the given
subtree): a leaf stores its own stem when its name is a registered multiple,
else the empty list; a non-leaf stores the concatenation of the attributes
currently held by its children. -/
def add_multi_annot (multies : List String) (sub : ETree) (p : NPath) (m : AnnotMap) : AnnotMap :=
  match sub with
  | ETree.node nm [] =>
    (p, if multies.contains nm then [stemOf nm] else []) :: m
  | ETree.node _ cs =>
    (p, ((List.range cs.length).map (fun i => (lookupA m (p ++ [i])).getD [])).flatten) :: m

/-- One iteration of the annotation loop for the node at path p. -/
def annotStep (multies : List String) (t : ETree) (m : AnnotMap) (p : NPath) : AnnotMap :=
  match subtreeAt p t with
  | some sub => add_multi_annot multies sub p m
  | none => m

/-- The whole pass: for node in tree.traverse(postorder):
add_multi_annotation(node, multies). -/
def annotAll (multies : List String) (t : ETree) : AnnotMap :=
  (postorderPaths t []).foldl (annotStep multies t) []

mutual

/-- The value the pass computes for a subtree (proved below to be what the
pass stores for every node): the list of stems of registered multiple
leaves, in left-to-right leaf order, duplicates preserved. -/
def multiDesc (multies : List String) : ETree → List String
  | ETree.node nm [] => if multies.contains nm then [stemOf nm] else []
  | ETree.node _ (c :: cs) => multiDescList multies (c :: cs)

def multiDescList (multies : List String) : List ETree → List String
  | [] => []
  | c :: cs => multiDesc multies c ++ multiDescList multies cs

end

/-- The multi_descendants attribute of the node at path p after the pass,
as read by the matcher (the attribute is always present for nodes of the
tree). -/
def annotValue (t : ETree) (multies : List String) (p : NPath) : List String :=
  (lookupA (annotAll multies t) p).getD []

/-! ## Match Scorer (processing.py match_score) -/

/-- match_score of two multi_descendants lists: Jaccard index of the two
sets of distinct stems.  Python raises ZeroDivisionError when both sets are
empty; this is modelled as none. -/
def match_score (vector1 vector2 : List String) : Option ℚ :=
  let s1 := vector1.toFinset
  let s2 := vector2.toFinset
  if (s1 ∪ s2).card = 0 then none
  else some (((s1 ∩ s2).card : ℚ) / ((s1 ∪ s2).card : ℚ))

/-! ## Ancestry (processing.py are_ancestors) -/

/-- The paths yielded by ete3 iter_ancestors: parent, grandparent, ...,
root. -/
def ancestorPaths (p : NPath) : List NPath :=
  (List.range p.length).map (fun k => p.take (p.length - 1 - k))

/-- are_ancestors: walk the ancestors of node1 looking for node2, then the
ancestors of node2 looking for node1. -/
def are_ancestors (node1 node2 : NPath) : Bool :=
  (ancestorPaths node1).contains node2 || (ancestorPaths node2).contains node1

/-! ## Reciprocal Matcher (draw.py lines 112-128) -/

/-- Candidate nodes: postorder traversal filtered to nodes with a non-empty
multi_descendants attribute that are not leaves. -/
def node_refs (t : ETree) (multies : List String) : List NPath :=
  (postorderPaths t []).filter
    (fun p => !(annotValue t multies p).isEmpty && !(isLeafAt t p))

/-- The score matrix: row y, column x holds
match_score(x.multi_descendants, y.multi_descendants). -/
def match_matrix (t : ETree) (multies : List String) : List (List (Option ℚ)) :=
  (node_refs t multies).map (fun y =>
    (node_refs t multies).map (fun x =>
      match_score (annotValue t multies x) (annotValue t multies y)))

/-- The cutoff test line[element] < s of the match loop.  Candidate nodes
have non-empty descendant lists, so the entry is always some value; a
missing value (where Python would have crashed computing the matrix) is
treated as below threshold. -/
def scoreBelow (o : Option ℚ) (s : ℚ) : Bool :=
  match o with
  | some q => decide (q < s)
  | none => true

/-- Entry (i, j) of the score matrix. -/
def matrixEntry (mm : List (List (Option ℚ))) (i j : Nat) : Option ℚ :=
  (mm.getD i []).getD j none

/-- The body of the match search loop for the pair index < element: skip it
when a score is below threshold, when the swapped pair was already
collected, or when the nodes are ancestor-related; otherwise append
(index, element). -/
def matchStep (t : ETree) (multies : List String) (s : ℚ)
    (acc2 : List (Nat × Nat)) (index element : Nat) : List (Nat × Nat) :=
  if scoreBelow (matrixEntry (match_matrix t multies) index element) s ||
      scoreBelow (matrixEntry (match_matrix t multies) element index) s then acc2
  else if acc2.contains (element, index) then acc2
  else if are_ancestors ((node_refs t multies).getD index [])
      ((node_refs t multies).getD element []) then acc2
  else acc2 ++ [(index, element)]

/-- The match search loop: for index, line in enumerate(match_matrix), for
element in range(index+1, len(line)). -/
def matchesIdx (t : ETree) (multies : List String) (s : ℚ) : List (Nat × Nat) :=
  (List.range (node_refs t multies).length).foldl
    (fun acc index =>
      ((List.range (node_refs t multies).length).drop (index + 1)).foldl
        (fun acc2 element => matchStep t multies s acc2 index element)
        acc)
    []

/-- Raw matches as node pairs (node_matches in the source). -/
def node_matches (t : ETree) (multies : List String) (s : ℚ) : List (NPath × NPath) :=
  (matchesIdx t multies s).map
    (fun ij => ((node_refs t multies).getD ij.1 [], (node_refs t multies).getD ij.2 []))

/-! ## Ancestral Reducer (draw.py lines 133-158) -/

/-- The domination test of the cleaning loop for match m against a different
match o: o pairs an ancestor of m.1 with an ancestor of m.2 (in either
orientation), or o shares an endpoint with m and o's nodes include an
ancestor of m's other endpoint. -/
def dominatesB (m o : NPath × NPath) : Bool :=
  let anc0 := ancestorPaths m.1
  let anc1 := ancestorPaths m.2
  (anc0.contains o.1 && anc1.contains o.2) ||
  (anc0.contains o.2 && anc1.contains o.1) ||
  ((m.1 = o.1 || m.1 = o.2) && (anc1.contains o.1 || anc1.contains o.2)) ||
  ((m.2 = o.1 || m.2 = o.2) && (anc0.contains o.1 || anc0.contains o.2))

/-- The cleaning loop: a raw match survives iff no different raw match
dominates it. -/
def clean_matches (node_ms : List (NPath × NPath)) : List (NPath × NPath) :=
  node_ms.filter (fun m => !(node_ms.any (fun o => o != m && dominatesB m o)))

/-! ## Group Merger (draw.py lines 172-182) -/

/-- Python set.add on a group modelled as order-preserving insertion. -/
def insertP (g : List NPath) (x : NPath) : List NPath :=
  if g.contains x then g else g ++ [x]

/-- Process one match against the group list: the first group containing
either endpoint absorbs both endpoints; if none does, a new group {m.1, m.2}
is appended. -/
def addMatch : List (List NPath) → NPath → NPath → List (List NPath)
  | [], a, b => [insertP (insertP [] a) b]
  | g :: rest, a, b =>
    if g.contains a || g.contains b then insertP (insertP g a) b :: rest
    else g :: addMatch rest a b

/-- The merge loop over the clean match list. -/
def mergeGroups (cm : List (NPath × NPath)) : List (List NPath) :=
  cm.foldl (fun gs m => addMatch gs m.1 m.2) []

/-! ## The pipeline on one input tree

The input tree is the preprocessed tree (parsed, rooted, support-collapsed,
names trimmed).  The registry is built from its leaf names, demoted leaves
are renamed in the tree, and the matching stages run on the renamed tree. -/

/-- The registry derived from the tree's leaves. -/
def pipeMulties (t : ETree) : List String :=
  finalMulties (leafNames t)

/-- The tree after the demotion loop renamed its demoted leaves. -/
def pipeTree (t : ETree) : ETree :=
  renameLeaves (finalName (leafNames t)) t

/-- Raw matches of the pipeline at threshold s. -/
def pipeRaw (t : ETree) (s : ℚ) : List (NPath × NPath) :=
  node_matches (pipeTree t) (pipeMulties t) s

/-- Clean matches of the pipeline at threshold s. -/
def pipeClean (t : ETree) (s : ℚ) : List (NPath × NPath) :=
  clean_matches (pipeRaw t s)

/-- The final group list of the pipeline at threshold s. -/
def pipeGroups (t : ETree) (s : ℚ) : List (List NPath) :=
  mergeGroups (pipeClean t s)

/-! ## Concrete input trees used by the scenario claims -/

/-- A leaf. -/
def lf (nm : String) : ETree := ETree.node nm []

/-- The scenario-2 tree ((X_1,Y_1),(X_2,Y_2)). -/
def tree8 : ETree :=
  ETree.node "" [ETree.node "" [lf "X_1", lf "Y_1"], ETree.node "" [lf "X_2", lf "Y_2"]]

/-- A 14-leaf tree with five entities A..E spread over four clades whose
descendant stem sets are, in postorder candidate order,
S0 = A,B,C and S1 = A,D,E and S2 = A,B,D,E and S3 = A,B,C,D. -/
def tree14 : ETree :=
  ETree.node ""
    [ETree.node "" [lf "A_1", lf "B_1", lf "C_1"],
     ETree.node "" [lf "A_2", lf "D_1", lf "E_1"],
     ETree.node "" [lf "A_3", lf "B_2", lf "D_2", lf "E_2"],
     ETree.node "" [lf "A_4", lf "B_3", lf "C_2", lf "D_3"]]

/-! ## HMMER name mapping (processing.py hmmer_name_mapping)

The function builds a dict old-name to new-name, then renumbers subdomains
in a second loop over the dict keys.  The dict is modelled as an association
list whose keys are the distinct input names in first-occurrence order.
Two statements of the source can raise on malformed names: reading
r[name][-2] of a value shorter than two characters (IndexError), and
first_pos_re.search(x).groups(...) when the coordinate pattern /digits-digits
followed by a space is absent from a name of a multi-domain query
(AttributeError on None).  Both are modelled as none. -/

/-- Python name.split(' [subseq')[0]: the part before the first occurrence
of the separator (the whole string when absent). -/
def splitSubseq (name : String) : String :=
  String.mk (beforeSub " [subseq".toList name.toList)
where
  beforeSub (pat : List Char) : List Char → List Char
    | [] => []
    | c :: rest => if pat.isPrefixOf (c :: rest) then [] else c :: beforeSub pat rest

/-- Python v[-2]: the second character from the end, when it exists. -/
def charAtFromEnd (s : String) : Option Char :=
  match s.toList.reverse with
  | _ :: c :: _ => some c
  | _ => none

/-- Python v.split('/')[0]. -/
def queryOf (v : String) : String :=
  String.mk ((splitOnChar '/' v.toList).headD v.toList)

/-- Value of digit characters read as a decimal number (int of a digit
string). -/
def digitsToNat (l : List Char) : Nat :=
  l.foldl (fun n c => n * 10 + (c.toNat - '0'.toNat)) 0

/-- The first match of the regular expression /(\d+)-\d+ in a name
(re.search with pattern slash, digits, minus, digits, space), returning the
first captured group as a number; none when the pattern does not occur. -/
def firstPosOf : List Char → Option Nat
  | [] => none
  | c :: rest =>
    match (if c = '/' then afterSlash rest else none) with
    | some k => some k
    | none => firstPosOf rest
where
  afterSlash (l : List Char) : Option Nat :=
    let d1 := l.takeWhile Char.isDigit
    let r1 := l.dropWhile Char.isDigit
    if d1.isEmpty then none
    else
      match r1 with
      | '-' :: r2 =>
        let d2 := r2.takeWhile Char.isDigit
        let r3 := r2.dropWhile Char.isDigit
        if d2.isEmpty then none
        else
          match r3 with
          | ' ' :: _ => some (digitsToNat d1)
          | _ => none
      | _ => none

/-- Current value of a key of the r dict. -/
def lookupV : List (String × String) → String → Option String
  | [], _ => none
  | (k, v) :: rest, n => if k = n then some v else lookupV rest n

/-- Assignment r[k] = v to an existing key. -/
def setV (r : List (String × String)) (k : String) (v : String) : List (String × String) :=
  r.map (fun kv => if kv.1 = k then (kv.1, v) else kv)

/-- The first loop: r[name] = name.split(' [subseq')[0] for every input
name (duplicate names hit the same key). -/
def initialMap (names : List String) : List (String × String) :=
  (firstDedup [] names).map (fun n => (n, splitSubseq n))

/-- First positions of all matched names, none when some name lacks the
coordinate pattern (the AttributeError path of the source). -/
def positionsOf (ms : List String) : Option (List (String × Nat)) :=
  ms.mapM (fun x => (firstPosOf x.toList).map (fun k => (x, k)))

/-- One iteration of the renumbering loop for the key n. -/
def hmmerStep (keys : List String) (st : List (String × String) × List String)
    (n : String) : Option (List (String × String) × List String) :=
  match lookupV st.1 n with
  | none => none
  | some v =>
    match charAtFromEnd v with
    | none => none
    | some c =>
      if c = '_' then some st
      else
        let query := queryOf v
        if st.2.contains query then some st
        else
          let ms := keys.filter (fun x => strContains x query)
          if 1 < ms.length then
            match positionsOf ms with
            | none => none
            | some pos =>
              let sorted := List.insertionSort (fun a b => a ≤ b) (pos.map Prod.snd)
              some
                (ms.foldl
                  (fun r2 x =>
                    setV r2 x
                      (query ++ "_" ++ toString (sorted.indexOf ((pos.lookup x).getD 0) + 1)))
                  st.1,
                 query :: st.2)
          else some (setV st.1 n (query ++ "_1"), query :: st.2)

/-- hmmer_name_mapping: the trimming loop followed by the renumbering loop
over the dict keys; none models the IndexError and AttributeError raised on
malformed names. -/
def hmmer_name_mapping (names : List String) : Option (List (String × String)) :=
  let keys := firstDedup [] names
  (keys.foldlM (hmmerStep keys) (initialMap names, [])).map Prod.fst

/-! ## Basic lemmas about paths and the annotation pass -/

theorem subtreeAt_append (p r : NPath) (t : ETree) :
    subtreeAt (p ++ r) t = (subtreeAt p t).bind (subtreeAt r) := by
  induction p generalizing t with
  | nil => simp [subtreeAt]
  | cons i p2 ih =>
    cases t with
    | node nm cs =>
      simp only [List.cons_append, subtreeAt]
      cases cs.get? i with
      | none => rfl
      | some c => simp [ih]

theorem ne_append_cons (q : NPath) (j : Nat) (r : NPath) : q ≠ q ++ j :: r := by
  intro h
  have := congrArg List.length h
  simp at this

theorem lookupA_cons_ne (q p : NPath) (v : List String) (m : AnnotMap) (h : q ≠ p) :
    lookupA ((q, v) :: m) p = lookupA m p := by
  simp [lookupA, h]

theorem lookupA_cons_self (q : NPath) (v : List String) (m : AnnotMap) :
    lookupA ((q, v) :: m) q = some v := by
  simp [lookupA]

theorem flatten_range_map (multies : List String) (g : Nat → List String) (cs : List ETree)
    (hg : ∀ j c, cs.get? j = some c → g j = multiDesc multies c) :
    ((List.range cs.length).map g).flatten = multiDescList multies cs := by
  induction cs generalizing g with
  | nil => simp [multiDescList]
  | cons c rest ih =>
    rw [List.length_cons, List.range_succ_eq_map]
    simp only [List.map_cons, List.map_map, List.flatten_cons]
    rw [hg 0 c rfl, multiDescList]
    congr 1
    exact ih (fun j => g (j + 1)) (fun j c2 h => hg (j + 1) c2 h)

mutual

/-- After folding the annotation step over the postorder path list of the
subtree sub sitting at path q, (1) paths not below q keep their previous
attribute, and (2) every node of sub holds the multiDesc value of its own
subtree. -/
theorem annotT_correct (multies : List String) (t : ETree) (sub : ETree) :
    ∀ (q : NPath) (m : AnnotMap), subtreeAt q t = some sub →
      (∀ p, ¬ (q <+: p) →
        lookupA ((postorderPaths sub q).foldl (annotStep multies t) m) p = lookupA m p) ∧
      (∀ r s2, subtreeAt r sub = some s2 →
        lookupA ((postorderPaths sub q).foldl (annotStep multies t) m) (q ++ r)
          = some (multiDesc multies s2)) :=
  match sub with
  | ETree.node nm cs => by
    intro q m hq
    have hchild : ∀ j c, cs.get? j = some c → subtreeAt (q ++ [0 + j]) t = some c := by
      intro j c hj
      have h1 : subtreeAt [j] (ETree.node nm cs) = some c := by
        show (cs.get? j).bind (subtreeAt []) = some c
        rw [hj]
        rfl
      rw [Nat.zero_add, subtreeAt_append, hq]
      exact h1
    have hL := annotL_correct multies t cs q 0 m hchild
    rw [postorderPaths, List.foldl_append]
    set m1 := (postorderChildren cs q 0).foldl (annotStep multies t) m with hm1
    have hval : (List.foldl (annotStep multies t) m1 [q])
        = (q, multiDesc multies (ETree.node nm cs)) :: m1 := by
      show annotStep multies t m1 q = _
      simp only [annotStep, hq]
      cases cs with
      | nil => rfl
      | cons c rest =>
        simp only [add_multi_annot, multiDesc]
        have hfl : ((List.range (c :: rest).length).map
            (fun i => (lookupA m1 (q ++ [i])).getD [])).flatten
            = multiDescList multies (c :: rest) := by
          apply flatten_range_map
          intro j c2 hj
          have hl := hL.2 j c2 hj [] c2 rfl
          rw [Nat.zero_add] at hl
          rw [hl]
          rfl
        rw [hfl]
    rw [hval]
    constructor
    · intro p hp
      rw [lookupA_cons_ne q p _ m1 (fun h => hp (h ▸ List.prefix_refl q))]
      apply hL.1
      intro j hj hpre
      exact hp (List.IsPrefix.trans (List.prefix_append q [0 + j]) hpre)
    · intro r s2 hr
      cases r with
      | nil =>
        rw [subtreeAt] at hr
        injection hr with hr
        rw [List.append_nil, lookupA_cons_self, hr]
      | cons j r2 =>
        rw [subtreeAt] at hr
        rcases Option.bind_eq_some.mp hr with ⟨c, hc, hsub⟩
        rw [lookupA_cons_ne _ _ _ _ (ne_append_cons q j r2)]
        have := hL.2 j c hc r2 s2 hsub
        rw [Nat.zero_add] at this
        exact this

/-- Same statement for the fold over the postorder paths of a sibling list
whose first member has child index i. -/
theorem annotL_correct (multies : List String) (t : ETree) (cs : List ETree) :
    ∀ (q : NPath) (i : Nat) (m : AnnotMap),
      (∀ j c, cs.get? j = some c → subtreeAt (q ++ [i + j]) t = some c) →
      (∀ p, (∀ j, j < cs.length → ¬ ((q ++ [i + j]) <+: p)) →
        lookupA ((postorderChildren cs q i).foldl (annotStep multies t) m) p = lookupA m p) ∧
      (∀ j c, cs.get? j = some c → ∀ r s2, subtreeAt r c = some s2 →
        lookupA ((postorderChildren cs q i).foldl (annotStep multies t) m) (q ++ (i + j) :: r)
          = some (multiDesc multies s2)) :=
  match cs with
  | [] => by
    intro q i m _
    constructor
    · intro p _
      rfl
    · intro j c hj
      simp at hj
  | c :: rest => by
    intro q i m h
    have hc : subtreeAt (q ++ [i]) t = some c := by
      have := h 0 c rfl
      rwa [Nat.add_zero] at this
    have hT := annotT_correct multies t c (q ++ [i]) m hc
    rw [postorderChildren, List.foldl_append]
    set m1 := (postorderPaths c (q ++ [i])).foldl (annotStep multies t) m with hm1
    have hrest : ∀ j c2, rest.get? j = some c2 → subtreeAt (q ++ [(i + 1) + j]) t = some c2 := by
      intro j c2 hj
      have := h (j + 1) c2 hj
      rwa [show i + (j + 1) = (i + 1) + j by omega] at this
    have hL := annotL_correct multies t rest q (i + 1) m1 hrest
    constructor
    · intro p hp
      rw [hL.1 p (fun j hj hpre => by
        have := hp (j + 1) (by simpa using Nat.succ_lt_succ hj)
        rw [show i + (j + 1) = (i + 1) + j by omega] at this
        exact this hpre)]
      exact hT.1 p (fun hpre => by
        have := hp 0 (Nat.succ_pos rest.length)
        rw [Nat.add_zero] at this
        exact this hpre)
    · intro j c2 hj r s2 hs
      cases j with
      | zero =>
        rw [List.get?] at hj
        injection hj with hj
        subst hj
        have hT2 := hT.2 r s2 hs
        have hkeep : lookupA ((postorderChildren rest q (i + 1)).foldl (annotStep multies t) m1)
            ((q ++ [i]) ++ r) = lookupA m1 ((q ++ [i]) ++ r) := by
          apply hL.1
          intro j2 hj2 hpre
          rw [List.append_assoc] at hpre
          have := (List.prefix_append_right_inj q).mp hpre
          rcases this with ⟨ts, hts⟩
          cases ts with
          | nil => simp at hts; omega
          | cons a b =>
            have : (i + 1) + j2 = i := by
              have := congrArg (fun l => l.head? ) hts
              simpa using this
            omega
        rw [List.append_assoc] at hkeep hT2
        simp only [List.singleton_append] at hkeep hT2
        exact hkeep.trans hT2
      | succ j2 =>
        rw [List.get?] at hj
        have := hL.2 j2 c2 hj r s2 hs
        rwa [show (i + 1) + j2 = i + (j2 + 1) by omega] at this

end

/-- Every node of the tree ends the annotation pass holding the multiDesc
value of its own subtree. -/
theorem lookupA_annotAll (multies : List String) (t : ETree) (p : NPath) (sub : ETree)
    (h : subtreeAt p t = some sub) :
    lookupA (annotAll multies t) p = some (multiDesc multies sub) := by
  have := (annotT_correct multies t t [] [] rfl).2 p sub h
  exact this

/-- C5: after the postorder annotation pass, every internal node's
multi_descendants attribute is the concatenation of its children's
attributes (all present), and every leaf's attribute is the empty list or
the one-element list holding the leaf's entity stem. -/
theorem C5_annot_fold_law (multies : List String) (t : ETree) (p : NPath)
    (nm : String) (cs : List ETree) (h : subtreeAt p t = some (ETree.node nm cs)) :
    (cs = [] → lookupA (annotAll multies t) p = some [] ∨
      lookupA (annotAll multies t) p = some [stemOf nm]) ∧
    (cs ≠ [] →
      (∀ i, i < cs.length → (lookupA (annotAll multies t) (p ++ [i])).isSome = true) ∧
      lookupA (annotAll multies t) p =
        some (((List.range cs.length).map
          (fun i => (lookupA (annotAll multies t) (p ++ [i])).getD [])).flatten)) := by
  have hmain := lookupA_annotAll multies t p _ h
  have hchild : ∀ i c, cs.get? i = some c →
      lookupA (annotAll multies t) (p ++ [i]) = some (multiDesc multies c) := by
    intro i c hi
    apply lookupA_annotAll
    rw [subtreeAt_append, h]
    show (cs.get? i).bind (subtreeAt []) = some c
    rw [hi]
    rfl
  constructor
  · intro hcs
    subst hcs
    rw [hmain]
    by_cases hnm : multies.contains nm
    · right
      rw [multiDesc, if_pos hnm]
    · left
      rw [multiDesc, if_neg hnm]
  · intro hcs
    have hg : ∀ j c, cs.get? j = some c →
        (fun i => (lookupA (annotAll multies t) (p ++ [i])).getD []) j
          = multiDesc multies c := by
      intro j c hj
      show (lookupA (annotAll multies t) (p ++ [j])).getD [] = multiDesc multies c
      rw [hchild j c hj]
      rfl
    constructor
    · intro i hi
      rcases List.get?_eq_get hi with hc
      rw [hchild i (cs.get ⟨i, hi⟩) hc]
      rfl
    · have hfl := flatten_range_map multies _ cs hg
      rw [hmain, hfl]
      cases cs with
      | nil => cases hcs rfl
      | cons c rest => rfl

/-- Witness for C5 at the left subclade of the scenario tree. -/
theorem C5_annot_fold_law_w :
    subtreeAt [0] tree8 = some (ETree.node "" [lf "X_1", lf "Y_1"]) ∧
    (([lf "X_1", lf "Y_1"] : List ETree) = [] →
      lookupA (annotAll (pipeMulties tree8) tree8) [0] = some [] ∨
      lookupA (annotAll (pipeMulties tree8) tree8) [0] = some [stemOf ""]) ∧
    (([lf "X_1", lf "Y_1"] : List ETree) ≠ [] →
      (∀ i, i < ([lf "X_1", lf "Y_1"] : List ETree).length →
        (lookupA (annotAll (pipeMulties tree8) tree8) ([0] ++ [i])).isSome = true) ∧
      lookupA (annotAll (pipeMulties tree8) tree8) [0] =
        some (((List.range ([lf "X_1", lf "Y_1"] : List ETree).length).map
          (fun i => (lookupA (annotAll (pipeMulties tree8) tree8) ([0] ++ [i])).getD [])).flatten)) := by
  refine ⟨rfl, ?_⟩
  exact C5_annot_fold_law (pipeMulties tree8) tree8 [0] "" [lf "X_1", lf "Y_1"] rfl

/-- C9: the ancestor-or-descendant test is symmetric in its arguments. -/
theorem C9_are_ancestors_symm (node1 node2 : NPath) :
    are_ancestors node1 node2 = are_ancestors node2 node1 := by
  rw [are_ancestors, are_ancestors, Bool.or_comm]

/-- C7: match_score on two empty lists fails (ZeroDivisionError, modelled
as none); it does not return any value. -/
theorem C7_empty_score_error : match_score [] [] = none := by decide

/-- C6: on lists with at least one non-empty operand, match_score is
symmetric, returns a value between 0 and 1, and equals 1 on identical
non-empty operands. -/
theorem C6_score_props (A B : List String) (h : A ≠ [] ∨ B ≠ []) :
    match_score A B = match_score B A ∧
    (∃ q : ℚ, match_score A B = some q ∧ 0 ≤ q ∧ q ≤ 1) ∧
    (A ≠ [] → match_score A A = some 1) := by
  have hunion : (A.toFinset ∪ B.toFinset).Nonempty := by
    rcases h with h | h
    · rcases List.exists_mem_of_ne_nil A h with ⟨a, ha⟩
      exact ⟨a, Finset.mem_union_left _ (List.mem_toFinset.mpr ha)⟩
    · rcases List.exists_mem_of_ne_nil B h with ⟨b, hb⟩
      exact ⟨b, Finset.mem_union_right _ (List.mem_toFinset.mpr hb)⟩
  have hcard : (A.toFinset ∪ B.toFinset).card ≠ 0 :=
    Finset.card_ne_zero.mpr hunion
  have hAB : match_score A B =
      some (((A.toFinset ∩ B.toFinset).card : ℚ) / ((A.toFinset ∪ B.toFinset).card : ℚ)) := by
    simp only [match_score]
    rw [if_neg hcard]
  have hBA : match_score B A =
      some (((B.toFinset ∩ A.toFinset).card : ℚ) / ((B.toFinset ∪ A.toFinset).card : ℚ)) := by
    simp only [match_score]
    rw [if_neg (by rw [Finset.union_comm]; exact hcard)]
  refine ⟨?_, ?_, ?_⟩
  · rw [hAB, hBA, Finset.union_comm B.toFinset A.toFinset,
      Finset.inter_comm B.toFinset A.toFinset]
  · refine ⟨_, hAB, ?_, ?_⟩
    · positivity
    · apply div_le_one_of_le₀
      · exact_mod_cast Finset.card_le_card
          (Finset.Subset.trans Finset.inter_subset_left Finset.subset_union_left)
      · positivity
  · intro hA
    have hA2 : A.toFinset.card ≠ 0 := by
      apply Finset.card_ne_zero.mpr
      rcases List.exists_mem_of_ne_nil A hA with ⟨a, ha⟩
      exact ⟨a, List.mem_toFinset.mpr ha⟩
    simp only [match_score, Finset.union_self, Finset.inter_self]
    rw [if_neg hA2]
    rw [div_self (by exact_mod_cast hA2)]

/-- Witness for C6 on the one-element lists a and b. -/
theorem C6_score_props_w :
    ((["a"] : List String) ≠ [] ∨ (["b"] : List String) ≠ []) ∧
    (match_score ["a"] ["b"] = match_score ["b"] ["a"] ∧
      (∃ q : ℚ, match_score ["a"] ["b"] = some q ∧ 0 ≤ q ∧ q ≤ 1) ∧
      ((["a"] : List String) ≠ [] → match_score ["a"] ["a"] = some 1)) :=
  ⟨Or.inl (by decide), C6_score_props ["a"] ["b"] (Or.inl (by decide))⟩

/-- Elements of a foldl whose step only ever appends elements satisfying P
(given the accumulated ones do) all satisfy P. -/
theorem foldl_preserve {α β : Type} (f : List β → α → List β) (P : β → Prop)
    (hf : ∀ acc a, (∀ x ∈ acc, P x) → ∀ x ∈ f acc a, P x) :
    ∀ (l : List α) (acc : List β), (∀ x ∈ acc, P x) → ∀ x ∈ l.foldl f acc, P x := by
  intro l
  induction l with
  | nil => intro acc hacc x hx; exact hacc x hx
  | cons a l2 ih =>
    intro acc hacc x hx
    exact ih (f acc a) (hf acc a hacc) x hx

/-- Every index pair the match loop keeps passed the ancestry guard. -/
theorem matchStep_no_anc (t : ETree) (multies : List String) (s : ℚ)
    (acc2 : List (Nat × Nat)) (index element : Nat)
    (hacc : ∀ x ∈ acc2, are_ancestors ((node_refs t multies).getD x.1 [])
      ((node_refs t multies).getD x.2 []) = false) :
    ∀ x ∈ matchStep t multies s acc2 index element,
      are_ancestors ((node_refs t multies).getD x.1 [])
        ((node_refs t multies).getD x.2 []) = false := by
  intro x hx
  rw [matchStep] at hx
  split at hx
  · exact hacc x hx
  · split at hx
    · exact hacc x hx
    · split at hx
      · exact hacc x hx
      · rcases List.mem_append.mp hx with hx | hx
        · exact hacc x hx
        · rcases List.mem_singleton.mp hx with rfl
          simp only [Bool.not_eq_true] at *
          assumption

/-- No pair collected by the match search loop is ancestor-related. -/
theorem matchesIdx_no_anc (t : ETree) (multies : List String) (s : ℚ) :
    ∀ x ∈ matchesIdx t multies s,
      are_ancestors ((node_refs t multies).getD x.1 [])
        ((node_refs t multies).getD x.2 []) = false := by
  apply foldl_preserve
  · intro acc a hacc
    apply foldl_preserve
    · intro acc2 e hacc2
      exact matchStep_no_anc t multies s acc2 a e hacc2
    · exact hacc
  · intro x hx
    cases hx

/-- C4: no match of the raw or the clean match list pairs a node with one
of its ancestors or descendants. -/
theorem C4_ancestor_exclusion (t : ETree) (multies : List String) (s : ℚ)
    (m : NPath × NPath)
    (h : m ∈ node_matches t multies s ∨ m ∈ clean_matches (node_matches t multies s)) :
    are_ancestors m.1 m.2 = false := by
  have hraw : m ∈ node_matches t multies s := by
    rcases h with h | h
    · exact h
    · exact List.mem_of_mem_filter h
  rcases List.mem_map.mp hraw with ⟨ij, hij, rfl⟩
  exact matchesIdx_no_anc t multies s ij hij

/-- Witness for C4 on the scenario tree: its single raw match. -/
theorem C4_ancestor_exclusion_w :
    ((([0], [1]) : NPath × NPath) ∈ node_matches (pipeTree tree8) (pipeMulties tree8) (1/2) ∨
      (([0], [1]) : NPath × NPath) ∈
        clean_matches (node_matches (pipeTree tree8) (pipeMulties tree8) (1/2))) ∧
    are_ancestors ([0] : NPath) [1] = false :=
  ⟨Or.inl (by with_unfolding_all decide),
   C4_ancestor_exclusion (pipeTree tree8) (pipeMulties tree8) (1/2) ([0], [1])
     (Or.inl (by with_unfolding_all decide))⟩

/-- C3: a match surviving the cleaning loop is dominated by no other clean
match (the cleaning loop already checked all raw matches, and the clean
list is a sublist of the raw list). -/
theorem C3_reduction_minimality (raw : List (NPath × NPath)) (m o : NPath × NPath)
    (hm : m ∈ clean_matches raw) (ho : o ∈ clean_matches raw) (hne : o ≠ m) :
    dominatesB m o = false := by
  have hkeep := List.of_mem_filter hm
  have ho2 : o ∈ raw := List.mem_of_mem_filter ho
  rw [Bool.not_eq_eq_eq_not, Bool.not_true, List.any_eq_false] at hkeep
  have hno := hkeep o ho2
  cases hdom : dominatesB m o with
  | false => rfl
  | true =>
    exfalso
    apply hno
    rw [hdom, Bool.and_true]
    exact bne_iff_ne.mpr hne

/-- Witness for C3 on a two-element raw match list with no dominations. -/
theorem C3_reduction_minimality_w :
    ((([0], [1]) : NPath × NPath) ∈ clean_matches [([0], [1]), ([2], [3])]) ∧
    ((([2], [3]) : NPath × NPath) ∈ clean_matches [([0], [1]), ([2], [3])]) ∧
    (([2], [3]) : NPath × NPath) ≠ ([0], [1]) ∧
    dominatesB (([0], [1]) : NPath × NPath) (([2], [3]) : NPath × NPath) = false :=
  ⟨by decide, by decide, by decide,
   C3_reduction_minimality [([0], [1]), ([2], [3])] ([0], [1]) ([2], [3])
     (by decide) (by decide) (by decide)⟩

/-- Membership survives a set-style insertion. -/
theorem mem_insertP_of_mem (g : List NPath) (x y : NPath) (h : y ∈ g) : y ∈ insertP g x := by
  rw [insertP]
  split
  · exact h
  · exact List.mem_append_left _ h

/-- The inserted element is a member. -/
theorem mem_insertP_self (g : List NPath) (x : NPath) : x ∈ insertP g x := by
  rw [insertP]
  split
  · rename_i hc
    exact List.mem_of_elem_eq_true hc
  · exact List.mem_append_right _ (List.mem_singleton.mpr rfl)

/-- Processing a match leaves some group holding both its endpoints. -/
theorem addMatch_endpoints (gs : List (List NPath)) (a b : NPath) :
    ∃ g ∈ addMatch gs a b, a ∈ g ∧ b ∈ g := by
  induction gs with
  | nil =>
    refine ⟨insertP (insertP [] a) b, List.mem_singleton.mpr rfl, ?_, ?_⟩
    · exact mem_insertP_of_mem _ b a (mem_insertP_self [] a)
    · exact mem_insertP_self _ b
  | cons g rest ih =>
    rw [addMatch]
    split
    · refine ⟨insertP (insertP g a) b, List.mem_cons_self _ _, ?_, ?_⟩
      · exact mem_insertP_of_mem _ b a (mem_insertP_self g a)
      · exact mem_insertP_self _ b
    · rcases ih with ⟨g2, hg2, ha, hb⟩
      exact ⟨g2, List.mem_cons_of_mem g hg2, ha, hb⟩

/-- Every group of the list grows into a superset group after a match is
processed. -/
theorem addMatch_mono (gs : List (List NPath)) (a b : NPath) (g : List NPath)
    (hg : g ∈ gs) : ∃ g2 ∈ addMatch gs a b, ∀ x ∈ g, x ∈ g2 := by
  induction gs with
  | nil => cases hg
  | cons g0 rest ih =>
    rw [addMatch]
    rcases List.mem_cons.mp hg with rfl | hg2
    · split
      · refine ⟨insertP (insertP g a) b, List.mem_cons_self _ _, ?_⟩
        intro x hx
        exact mem_insertP_of_mem _ b x (mem_insertP_of_mem _ a x hx)
      · exact ⟨g, List.mem_cons_self _ _, fun x hx => hx⟩
    · split
      · exact ⟨g, List.mem_cons_of_mem _ hg2, fun x hx => hx⟩
      · rcases ih hg2 with ⟨g2, hg3, hsub⟩
        exact ⟨g2, List.mem_cons_of_mem _ hg3, hsub⟩

/-- A group of the accumulator grows into a superset group after the whole
merge fold. -/
theorem foldl_addMatch_mono (cm : List (NPath × NPath)) :
    ∀ (gs : List (List NPath)) (g : List NPath), g ∈ gs →
      ∃ g2 ∈ cm.foldl (fun gs2 m => addMatch gs2 m.1 m.2) gs, ∀ x ∈ g, x ∈ g2 := by
  induction cm with
  | nil => exact fun gs g hg => ⟨g, hg, fun x hx => hx⟩
  | cons hd tl ih =>
    intro gs g hg
    rcases addMatch_mono gs hd.1 hd.2 g hg with ⟨g1, hg1, hsub1⟩
    rcases ih (addMatch gs hd.1 hd.2) g1 hg1 with ⟨g2, hg2, hsub2⟩
    exact ⟨g2, hg2, fun x hx => hsub2 x (hsub1 x hx)⟩

/-- Every match of the list ends the merge fold with both endpoints in a
common group. -/
theorem foldl_addMatch_endpoints (cm : List (NPath × NPath)) :
    ∀ (gs : List (List NPath)) (m : NPath × NPath), m ∈ cm →
      ∃ g ∈ cm.foldl (fun gs2 m2 => addMatch gs2 m2.1 m2.2) gs, m.1 ∈ g ∧ m.2 ∈ g := by
  induction cm with
  | nil => intro gs m hm; cases hm
  | cons hd tl ih =>
    intro gs m hm
    rcases List.mem_cons.mp hm with rfl | hm2
    · rcases addMatch_endpoints gs m.1 m.2 with ⟨g, hg, ha, hb⟩
      rcases foldl_addMatch_mono tl (addMatch gs m.1 m.2) g hg with ⟨g2, hg2, hsub⟩
      exact ⟨g2, hg2, hsub _ ha, hsub _ hb⟩
    · exact ih (addMatch gs hd.1 hd.2) m hm2

/-- C1 (amended): every clean match's endpoints land together in at least
one produced group; groups are not pairwise disjoint in general. -/
theorem C1_groups_cover (cm : List (NPath × NPath)) (m : NPath × NPath) (hm : m ∈ cm) :
    ∃ g ∈ mergeGroups cm, m.1 ∈ g ∧ m.2 ∈ g :=
  foldl_addMatch_endpoints cm [] m hm

/-- Witness for the amended C1 on a one-match clean list. -/
theorem C1_groups_cover_w :
    ((([0], [1]) : NPath × NPath) ∈ [(([0], [1]) : NPath × NPath)]) ∧
    (∃ g ∈ mergeGroups [(([0], [1]) : NPath × NPath)], ([0] : NPath) ∈ g ∧ ([1] : NPath) ∈ g) :=
  ⟨by decide, C1_groups_cover [([0], [1])] ([0], [1]) (by decide)⟩

/-- Counterexample to C1 as stated: on the 14-leaf tree at threshold 3/5
(whose float value 0.6 compares identically), the pipeline produces two
distinct groups that share the candidate node at path 2: the third clean
match bridges the first two groups but only extends the first one. -/
theorem C1_counterexample :
    pipeGroups tree14 (3/5) = [[[0], [3], [2]], [[1], [2]]] ∧
    ([2] : NPath) ∈ (pipeGroups tree14 (3/5)).getD 0 [] ∧
    ([2] : NPath) ∈ (pipeGroups tree14 (3/5)).getD 1 [] ∧
    (pipeGroups tree14 (3/5)).getD 0 [] ≠ (pipeGroups tree14 (3/5)).getD 1 [] := by
  with_unfolding_all decide

/-- C8: scenario 2 end to end.  The two subclades (paths 0 and 1) are
annotated with X and Y, their mutual score is 1, the raw and clean match
lists hold exactly the one match pairing them, the merger produces exactly
one group of size 2, and the root (the third candidate, path nil) enters no
match because it is an ancestor of both subclades. -/
theorem C8_scenario2 :
    annotValue (pipeTree tree8) (pipeMulties tree8) [0] = ["X", "Y"] ∧
    annotValue (pipeTree tree8) (pipeMulties tree8) [1] = ["X", "Y"] ∧
    match_score (annotValue (pipeTree tree8) (pipeMulties tree8) [0])
      (annotValue (pipeTree tree8) (pipeMulties tree8) [1]) = some 1 ∧
    node_refs (pipeTree tree8) (pipeMulties tree8) = [[0], [1], []] ∧
    pipeRaw tree8 (1/2) = [([0], [1])] ∧
    pipeClean tree8 (1/2) = [([0], [1])] ∧
    pipeGroups tree8 (1/2) = [[[0], [1]]] ∧
    are_ancestors [] [0] = true ∧ are_ancestors [] [1] = true := by
  with_unfolding_all decide

/-- Membership in the demotion set is registry membership plus a substring
count below 2. -/
theorem mem_to_trim (reg : List String) (n : String) :
    n ∈ to_trim reg ↔ n ∈ reg ∧ stemCount reg (stemOf n) < 2 := by
  rw [to_trim]
  simp [List.mem_filter]

/-- A list with a false containment test does not hold the element. -/
theorem not_mem_of_contains_eq_false {l : List String} {a : String}
    (h : l.contains a = false) : a ∉ l := fun hm =>
  Bool.noConfusion ((List.elem_eq_true_of_mem hm).symm.trans h)

/-- C2 (amended): every registered name surviving demotion had its stem
contained, as a substring, in at least 2 names of the pre-demotion
registry; every registered name whose stem falls below that count is
removed from the registry and its leaf is renamed to the bare stem. -/
theorem C2_demotion (names : List String) :
    (∀ n ∈ finalMulties names, 2 ≤ stemCount (multiesKeys names) (stemOf n)) ∧
    (∀ n ∈ multiesKeys names, stemCount (multiesKeys names) (stemOf n) < 2 →
      n ∉ finalMulties names ∧ finalName names n = stemOf n) := by
  constructor
  · intro n hn
    have hreg : n ∈ multiesKeys names := List.mem_of_mem_filter hn
    have hp := List.of_mem_filter hn
    rw [Bool.not_eq_eq_eq_not, Bool.not_true] at hp
    by_contra hlt
    exact not_mem_of_contains_eq_false hp ((mem_to_trim _ n).mpr ⟨hreg, by omega⟩)
  · intro n hreg hlt
    have htrim : n ∈ to_trim (multiesKeys names) := (mem_to_trim _ n).mpr ⟨hreg, hlt⟩
    constructor
    · intro hfin
      have hp := List.of_mem_filter hfin
      rw [Bool.not_eq_eq_eq_not, Bool.not_true] at hp
      exact not_mem_of_contains_eq_false hp htrim
    · rw [finalName, if_pos (List.elem_eq_true_of_mem htrim)]

/-- Witness for the amended C2: P survives with two fragments, the lone Q
fragment is demoted and renamed. -/
theorem C2_demotion_w :
    ("P_1" ∈ finalMulties ["P_1", "P_2", "Q_1"] ∧
      2 ≤ stemCount (multiesKeys ["P_1", "P_2", "Q_1"]) (stemOf "P_1")) ∧
    ("Q_1" ∈ multiesKeys ["P_1", "P_2", "Q_1"] ∧
      stemCount (multiesKeys ["P_1", "P_2", "Q_1"]) (stemOf "Q_1") < 2 ∧
      "Q_1" ∉ finalMulties ["P_1", "P_2", "Q_1"] ∧
      finalName ["P_1", "P_2", "Q_1"] "Q_1" = stemOf "Q_1") :=
  ⟨⟨by decide, (C2_demotion ["P_1", "P_2", "Q_1"]).1 "P_1" (by decide)⟩,
   ⟨by decide, by decide,
    ((C2_demotion ["P_1", "P_2", "Q_1"]).2 "Q_1" (by decide) (by decide)).1,
    ((C2_demotion ["P_1", "P_2", "Q_1"]).2 "Q_1" (by decide) (by decide)).2⟩⟩

/-- Counterexample to C2 as stated: with leaf names B_1 and AB_1, the
substring count keeps B_1 registered (its stem B occurs inside both names)
while AB_1 is demoted; the surviving prefix B then corresponds to exactly
one leaf, and that lone corroborated leaf is neither removed nor renamed. -/
theorem C2_counterexample :
    finalMulties ["B_1", "AB_1"] = ["B_1"] ∧
    stemOf "B_1" = "B" ∧
    ((finalMulties ["B_1", "AB_1"]).filter (fun x => stemOf x == "B")).length = 1 ∧
    finalName ["B_1", "AB_1"] "B_1" = "B_1" ∧
    "B_1" ≠ "B" := by
  decide

/-- Assigning to an existing key leaves the key list unchanged. -/
theorem setV_keys (r : List (String × String)) (k v : String) :
    (setV r k v).map Prod.fst = r.map Prod.fst := by
  induction r with
  | nil => rfl
  | cons kv rest ih =>
    simp only [setV, List.map_cons] at *
    rw [ih]
    split
    · rfl
    · rfl

/-- A fold of assignments to existing keys leaves the key list unchanged. -/
theorem foldl_setV_keys (f : String → String) (ms : List String) :
    ∀ r : List (String × String),
      ((ms.foldl (fun r2 x => setV r2 x (f x)) r).map Prod.fst) = r.map Prod.fst := by
  induction ms with
  | nil => exact fun r => rfl
  | cons a ms2 ih =>
    intro r
    rw [List.foldl_cons, ih (setV r a (f a)), setV_keys]

/-- One renumbering iteration never adds or drops a key. -/
theorem hmmerStep_keys (keys : List String) (st : List (String × String) × List String)
    (n : String) (st2 : List (String × String) × List String)
    (h : hmmerStep keys st n = some st2) :
    st2.1.map Prod.fst = st.1.map Prod.fst := by
  simp only [hmmerStep] at h
  cases hv : lookupV st.1 n with
  | none => simp only [hv] at h; exact Option.noConfusion h
  | some v =>
    simp only [hv] at h
    cases hc : charAtFromEnd v with
    | none => simp only [hc] at h; exact Option.noConfusion h
    | some c =>
      simp only [hc] at h
      split at h
      · injection h with h
        rw [← h]
      · split at h
        · injection h with h
          rw [← h]
        · split at h
          · split at h
            · exact Option.noConfusion h
            · injection h with h
              rw [← h]
              exact foldl_setV_keys _ _ st.1
          · injection h with h
            rw [← h]
            exact setV_keys st.1 n _

/-- The renumbering loop never adds or drops a key. -/
theorem foldlM_keys (keys : List String) :
    ∀ (l : List String) (st0 stf : List (String × String) × List String),
      l.foldlM (hmmerStep keys) st0 = some stf →
      stf.1.map Prod.fst = st0.1.map Prod.fst := by
  intro l
  induction l with
  | nil =>
    intro st0 stf h
    injection h with h
    rw [h]
  | cons a l2 ih =>
    intro st0 stf h
    rw [List.foldlM_cons] at h
    cases hs : hmmerStep keys st0 a with
    | none => rw [hs] at h; exact Option.noConfusion h
    | some st1 =>
      rw [hs] at h
      have h2 : l2.foldlM (hmmerStep keys) st1 = some stf := h
      rw [ih st1 stf h2, hmmerStep_keys keys st0 a st1 hs]

/-- The trimming loop installs exactly the distinct input names as keys. -/
theorem initialMap_keys (names : List String) :
    (initialMap names).map Prod.fst = firstDedup [] names := by
  rw [initialMap, List.map_map]
  rw [show (Prod.fst ∘ fun n => (n, splitSubseq n)) = id from rfl, List.map_id]

/-- Membership in the dict key computation. -/
theorem mem_firstDedup (x : String) :
    ∀ (l : List String) (seen : List String),
      x ∈ firstDedup seen l ↔ (x ∈ l ∧ x ∉ seen) := by
  intro l
  induction l with
  | nil => intro seen; simp [firstDedup]
  | cons y ys ih =>
    intro seen
    rw [firstDedup]
    by_cases hy : y ∈ seen
    · rw [if_pos hy, ih seen]
      simp only [List.mem_cons]
      constructor
      · exact fun h => ⟨Or.inr h.1, h.2⟩
      · rintro ⟨h1 | h1, h2⟩
        · exact absurd (h1 ▸ hy) h2
        · exact ⟨h1, h2⟩
    · rw [if_neg hy]
      simp only [List.mem_cons, ih (y :: seen)]
      constructor
      · rintro (rfl | ⟨h1, h2⟩)
        · exact ⟨Or.inl rfl, hy⟩
        · exact ⟨Or.inr h1, fun hs => h2 (Or.inr hs)⟩
      · rintro ⟨h1 | h1, h2⟩
        · exact Or.inl h1
        · by_cases hxy : x = y
          · exact Or.inl hxy
          · exact Or.inr ⟨h1, fun hs => hs.elim hxy h2⟩

/-- C10 (amended): whenever hmmer_name_mapping returns a mapping, its key
set is exactly the set of input names. -/
theorem C10_hmmer_keys (names : List String) (r : List (String × String))
    (h : hmmer_name_mapping names = some r) :
    ∀ x : String, (∃ v, (x, v) ∈ r) ↔ x ∈ names := by
  simp only [hmmer_name_mapping] at h
  rcases Option.map_eq_some'.mp h with ⟨st, hst, hr⟩
  have hkeys : r.map Prod.fst = firstDedup [] names := by
    rw [← hr]
    rw [foldlM_keys (firstDedup [] names) (firstDedup [] names) (initialMap names, []) st hst]
    exact initialMap_keys names
  intro x
  constructor
  · rintro ⟨v, hv⟩
    have hx : x ∈ r.map Prod.fst := List.mem_map.mpr ⟨(x, v), hv, rfl⟩
    rw [hkeys] at hx
    exact ((mem_firstDedup x names []).mp hx).1
  · intro hx
    have hx2 : x ∈ r.map Prod.fst := by
      rw [hkeys]
      exact (mem_firstDedup x names []).mpr ⟨hx, by simp⟩
    rcases List.mem_map.mp hx2 with ⟨⟨a, v⟩, hav, hax⟩
    exact ⟨v, hax ▸ hav⟩

/-- Witness for the amended C10 on a well-formed two-domain input. -/
theorem C10_hmmer_keys_w :
    hmmer_name_mapping ["Q/1-5 x", "Q/6-9 x"]
      = some [("Q/1-5 x", "Q_1"), ("Q/6-9 x", "Q_2")] ∧
    ((∃ v, ("Q/1-5 x", v) ∈ [("Q/1-5 x", "Q_1"), ("Q/6-9 x", "Q_2")]) ↔
      "Q/1-5 x" ∈ ["Q/1-5 x", "Q/6-9 x"]) :=
  ⟨by decide,
   C10_hmmer_keys ["Q/1-5 x", "Q/6-9 x"] [("Q/1-5 x", "Q_1"), ("Q/6-9 x", "Q_2")]
     (by decide) "Q/1-5 x"⟩

/-- Counterexample to C10 as stated: on the one-element list holding the
name A the function raises (reading index -2 of a one-character value)
instead of returning a mapping, so no dictionary with the input key set is
produced. -/
theorem C10_counterexample :
    hmmer_name_mapping ["A"] = none ∧ (["A"] : List String) ≠ [] := by
  decide
